import Mathlib

/-!
Verification development for the kmermaid k-mer batching/merging pipeline.

The Python sources under `src/kmermaid/` are shallowly embedded as Lean
functions: strings become `List Char`, Python `int` arithmetic is carried
out in `Nat`/`Int` with comments wherever truncated subtraction would
diverge from Python, fallible code returns `Except`/`Option` or an
explicit error component, and generator-based code is rendered as
functions on lists (with explicit fuel where the Python loop's
termination is not structural).
-/

namespace Kmermaid

/-- Python strings are modelled as lists of characters; Python string
comparison (used to key the sorts and merges) is code-point lexicographic,
which is exactly the `LinearOrder (List Char)` order. -/
abbrev Str : Type := List Char

/-- Strand of `SequenceCoords.STRAND` (src/kmermaid/seq.py): `PLUS`/`MINUS`. -/
inductive Strand
  | plus
  | minus
deriving DecidableEq, Repr

/-- Embedding of `SequenceCoords.rev` (src/kmermaid/seq.py): swap the strand. -/
def Strand.rev : Strand → Strand
  | .plus => .minus
  | .minus => .plus

/-- Embedding of `SequenceCoords.STRAND.label`: `"+-"[value]`. -/
def Strand.label : Strand → Str
  | .plus => ['+']
  | .minus => ['-']

/-- Embedding of the `KMer` record (src/kmermaid/seq.py): reference name,
start/end coordinates, sequence and strand.  `KMer.__init__` asserts
`len(seq) == end - start`; the constructions below always satisfy it.
The Python field `end` is called `stop` here (`end` is a Lean keyword). -/
structure KMer where
  ref : Str
  start : Nat
  stop : Nat
  seq : Str
  strand : Strand
deriving DecidableEq, Repr

/-- Embedding of `Sequence.yield_kmers` (src/kmermaid/seq.py, lines 239-283).

Python:
```
seq = seq.upper()
for i in range(len(seq) - k + 1):
    if not Sequence.check_ab(seq[i : i + k], om.AB_NA[t]):
        logging.warning(...); continue
    yield from kmer_yielder(i, seq, prefix, k, t, offset, strand, rc)
```
where the yielder emits `KMer(prefix, i + offset, i + offset + k,
seq[i : i + k], t, strand)` and, when `rc` is set, additionally the
reverse complement with the opposite strand (`__kmer_yielding_with_rc`).

The alphabet check `Sequence.check_ab(sub, om.AB_NA[t])` lives in the
external `oligo_melting` package; it is abstracted as the parameter
`ab : Str → Bool` (membership of every character in the alphabet of the
fixed nucleic-acid type `t`).  Likewise `Sequence.mkrc` (reverse
complement, external) is the abstract parameter `mkrc`.  `range(len(seq)
- k + 1)` over Python ints equals `List.range (len + 1 - k)` in `Nat`
(both are empty when `k > len + 1 - 1`). -/
def yieldKmers (seq : Str) (pfx : Str) (k : Nat) (ab : Str → Bool)
    (offset : Nat) (strand : Strand) (rc : Bool) (mkrc : Str → Str) : List KMer :=
  let s := seq.map Char.toUpper
  (List.range (s.length + 1 - k)).flatMap (fun i =>
    if ab ((s.drop i).take k) then
      ⟨pfx, i + offset, i + offset + k, (s.drop i).take k, strand⟩ ::
        (if rc then
          [⟨pfx, i + offset, i + offset + k, mkrc ((s.drop i).take k), strand.rev⟩]
        else [])
    else [])

/-- Loop body of `Sequence.batcher` (src/kmermaid/seq.py, lines 316-338).

Python:
```
start = 0
while start < len(seq) - k + 1:
    end = min(len(seq), start + batchSize)
    yield (seq[start:end], start)
    start += batchSize - k + 1
```
The guard is evaluated over `Int` exactly as Python evaluates it over
ints.  The loop is rendered with explicit fuel: when `batchSize ≥ k`
every iteration advances `start` by `batchSize - k + 1 ≥ 1`, so
`len(seq) + 1` iterations always suffice (see `batcher`); when
`batchSize < k` the Python loop never terminates and no fuel is
appropriate. -/
def batcherAux (seq : Str) (k bsize : Nat) : Nat → Nat → List (Str × Nat)
  | _, 0 => []
  | start, fuel + 1 =>
    if (start : Int) < (seq.length : Int) - (k : Int) + 1 then
      let e := min seq.length (start + bsize)
      ((seq.drop start).take (e - start), start) ::
        batcherAux seq k bsize (start + (bsize - k + 1)) fuel
    else []

/-- Embedding of `Sequence.batcher` (src/kmermaid/seq.py, lines 316-338):
the fuelled loop started at `start = 0`, with enough fuel for every
terminating (`batchSize ≥ k`) run. -/
def batcher (seq : Str) (k bsize : Nat) : List (Str × Nat) :=
  batcherAux seq k bsize 0 (seq.length + 1)

example :
    batcher ['A','C','G','A','C','G'] 3 4 =
      [(['A','C','G','A'], 0), (['G','A','C','G'], 2)] := by decide

example :
    (yieldKmers ['a','C','g','A','C','G'] ['r'] 3 (fun _ => true) 0 .plus false id).map
        (fun km => (km.seq, km.start, km.stop)) =
      [(['A','C','G'], 0, 3), (['C','G','A'], 1, 4),
       (['G','A','C'], 2, 5), (['A','C','G'], 3, 6)] := by decide

/-- Proof-side view of one loop iteration of `yield_kmers`: the k-mers the
generator emits at absolute position `j` of the upper-cased sequence `u`. -/
def absKmers (u : Str) (pfx : Str) (k : Nat) (ab : Str → Bool)
    (strand : Strand) (rc : Bool) (mkrc : Str → Str) (j : Nat) : List KMer :=
  if ab ((u.drop j).take k) then
    ⟨pfx, j, j + k, (u.drop j).take k, strand⟩ ::
      (if rc then [⟨pfx, j, j + k, mkrc ((u.drop j).take k), strand.rev⟩] else [])
  else []

lemma slice_slice (u : Str) (off m i k : Nat) (him : i + k ≤ m) :
    (((u.drop off).take m).drop i).take k = (u.drop (off + i)).take k := by
  rw [List.drop_take, List.take_take, List.drop_drop,
    min_eq_left (by omega : k ≤ m - i)]

lemma yieldKmers_slice (seq pfx : Str) (k : Nat) (ab : Str → Bool)
    (strand : Strand) (rc : Bool) (mkrc : Str → Str) (off m : Nat)
    (h : off + m ≤ seq.length) :
    yieldKmers ((seq.drop off).take m) pfx k ab off strand rc mkrc
      = (List.range (m + 1 - k)).flatMap
          (fun i => absKmers (seq.map Char.toUpper) pfx k ab strand rc mkrc (off + i)) := by
  simp only [yieldKmers]
  rw [List.map_take, List.map_drop]
  have hlen : (((seq.map Char.toUpper).drop off).take m).length = m := by
    simp only [List.length_take, List.length_drop, List.length_map]
    omega
  rw [hlen]
  apply List.flatMap_congr
  intro i hi
  rw [List.mem_range] at hi
  have hik : i + k ≤ m := by omega
  rw [slice_slice _ _ _ _ _ hik, absKmers, Nat.add_comm i off]

lemma yieldKmers_whole (seq pfx : Str) (k : Nat) (ab : Str → Bool)
    (strand : Strand) (rc : Bool) (mkrc : Str → Str) :
    yieldKmers seq pfx k ab 0 strand rc mkrc
      = (List.range (seq.length + 1 - k)).flatMap
          (absKmers (seq.map Char.toUpper) pfx k ab strand rc mkrc) := by
  simp only [yieldKmers, List.length_map]
  apply List.flatMap_congr
  intro i _
  rw [absKmers, Nat.add_zero]

lemma batcherAux_flatMap (seq pfx : Str) (k bsize : Nat) (ab : Str → Bool)
    (strand : Strand) (rc : Bool) (mkrc : Str → Str)
    (hk : 1 ≤ k) (hb : k ≤ bsize) :
    ∀ fuel start, seq.length + 1 - start ≤ fuel →
      (batcherAux seq k bsize start fuel).flatMap
          (fun p => yieldKmers p.1 pfx k ab p.2 strand rc mkrc)
        = (List.range' start (seq.length + 1 - k - start)).flatMap
            (absKmers (seq.map Char.toUpper) pfx k ab strand rc mkrc) := by
  intro fuel
  induction fuel with
  | zero =>
    intro start h
    have hz : seq.length + 1 - k - start = 0 := by omega
    simp [batcherAux, hz]
  | succ fuel ih =>
    intro start h
    by_cases hc : (start : Int) < (seq.length : Int) - (k : Int) + 1
    · have hstart : start + k ≤ seq.length := by omega
      simp only [batcherAux, if_pos hc, List.flatMap_cons]
      have hse : start ≤ min seq.length (start + bsize) :=
        le_min (by omega) (by omega)
      have heL : min seq.length (start + bsize) ≤ seq.length := min_le_left _ _
      rw [yieldKmers_slice seq pfx k ab strand rc mkrc start
            (min seq.length (start + bsize) - start) (by omega)]
      rw [ih (start + (bsize - k + 1)) (by omega)]
      rw [show (List.range (min seq.length (start + bsize) - start + 1 - k)).flatMap
            (fun i => absKmers (seq.map Char.toUpper) pfx k ab strand rc mkrc (start + i))
          = (List.range' start (min seq.length (start + bsize) - start + 1 - k)).flatMap
            (absKmers (seq.map Char.toUpper) pfx k ab strand rc mkrc) from by
        rw [List.range'_eq_map_range, List.flatMap_map]]
      by_cases hcase : start + bsize ≤ seq.length
      · have he2 : min seq.length (start + bsize) = start + bsize := min_eq_right hcase
        have hke : start + k ≤ min seq.length (start + bsize) := le_min hstart (by omega)
        rw [← List.flatMap_append]
        have hcnt : min seq.length (start + bsize) - start + 1 - k = bsize - k + 1 := by
          omega
        have harr := List.range'_append start (bsize - k + 1)
          (seq.length + 1 - k - start - (bsize - k + 1)) 1
        simp only [one_mul] at harr
        rw [hcnt, show seq.length + 1 - k - (start + (bsize - k + 1))
              = seq.length + 1 - k - start - (bsize - k + 1) from by omega, harr,
          show seq.length + 1 - k - start - (bsize - k + 1) + (bsize - k + 1)
              = seq.length + 1 - k - start from by omega]
      · have he2 : min seq.length (start + bsize) = seq.length := min_eq_left (by omega)
        have hz : seq.length + 1 - k - (start + (bsize - k + 1)) = 0 := by omega
        rw [hz, List.range'_zero, List.flatMap_nil, List.append_nil,
          show min seq.length (start + bsize) - start + 1 - k
              = seq.length + 1 - k - start from by omega]
    · have hz : seq.length + 1 - k - start = 0 := by omega
      simp [batcherAux, hc, hz]

lemma yieldKmers_start_mem {seq pfx : Str} {k : Nat} {ab : Str → Bool}
    {off : Nat} {strand : Strand} {rc : Bool} {mkrc : Str → Str} {km : KMer}
    (hm : km ∈ yieldKmers seq pfx k ab off strand rc mkrc) :
    ∃ i, i + k ≤ seq.length ∧ km.start = i + off ∧ km.stop = i + off + k := by
  simp only [yieldKmers, List.mem_flatMap] at hm
  obtain ⟨i, hi, hmem⟩ := hm
  rw [List.mem_range, List.length_map] at hi
  refine ⟨i, by omega, ?_, ?_⟩ <;>
  · rcases hab : ab (((seq.map Char.toUpper).drop i).take k) with _ | _ <;>
      simp [hab] at hmem
    rcases hrc : rc with _ | _ <;> simp [hrc] at hmem <;>
      first
        | (rcases hmem with h1 | h1 <;> simp [h1])
        | simp [hmem]

/-- Claim C1: for every sequence `seq`, every `k ≥ 1` and every shard size
`batchSize ≥ k`, concatenating over the shards `(sub, off)` yielded by
`Sequence.batcher(seq, k, batchSize)` (in order) the k-mers produced by
`Sequence.kmerator(sub, k, t, prefix, offset=off)` yields exactly the
k-mers of `Sequence.kmerator(seq, k, t, prefix)` on the whole sequence —
same multiplicity and the same `(start, end)` coordinates (list equality) —
and each shard k-mer carries `start = i + off` for its position `i` inside
the shard.  (`kmerator` is `iter(yield_kmers(...))`; the statement holds
for either value of the reverse-complement flag `rc`, in particular for
the claim's default `rc = False`.) -/
theorem claim_C1 (seq : Str) (k bsize : Nat) (pfx : Str) (ab : Str → Bool)
    (strand : Strand) (rc : Bool) (mkrc : Str → Str)
    (hk : 1 ≤ k) (hb : k ≤ bsize) :
    ((batcher seq k bsize).flatMap
        (fun p => yieldKmers p.1 pfx k ab p.2 strand rc mkrc)
      = yieldKmers seq pfx k ab 0 strand rc mkrc)
    ∧ ∀ p ∈ batcher seq k bsize,
        ∀ km ∈ yieldKmers p.1 pfx k ab p.2 strand rc mkrc,
          ∃ i, i + k ≤ p.1.length ∧ km.start = i + p.2 ∧ km.stop = i + p.2 + k := by
  constructor
  · rw [batcher, batcherAux_flatMap seq pfx k bsize ab strand rc mkrc hk hb
      (seq.length + 1) 0 (by omega), yieldKmers_whole]
    rw [Nat.sub_zero, ← List.range_eq_range']
  · intro p _ km hkm
    exact yieldKmers_start_mem hkm

/-- Witness for claim C1 at `seq = "ACGACG"`, `k = 3`, `batchSize = 4`. -/
theorem claim_C1_witness :
    ((1 : Nat) ≤ 3 ∧ (3 : Nat) ≤ 4) ∧
      (batcher ['A','C','G','A','C','G'] 3 4).flatMap
          (fun p => yieldKmers p.1 ['r'] 3 (fun _ => true) p.2 .plus false id)
        = yieldKmers ['A','C','G','A','C','G'] ['r'] 3 (fun _ => true) 0 .plus false id :=
  ⟨⟨by decide, by decide⟩,
    (claim_C1 ['A','C','G','A','C','G'] 3 4 ['r'] (fun _ => true) .plus false id
      (by decide) (by decide)).1⟩

/-! ## Merge crawler (src/kmermaid/join.py, `Crawler`) -/

/-- A record as `Crawler.do_records` sees it: the pair
`(str(r.header), str(r.seq))` produced for each batch record. -/
abbrev CrawlRec : Type := Str × Str

/-- Stable two-way merge keyed on the second component (the sequence).
`Crawler.do_records` merges the per-batch record generators with
`heapq.merge(*generators, key=lambda x: x[1])`; for sorted inputs
`heapq.merge` is the stable k-way merge (ties go to the earlier
iterator), which is exactly what folding this stable binary merge over
the batch list computes (see `doRecords`). -/
def recMerge : List CrawlRec → List CrawlRec → List CrawlRec
  | [], ys => ys
  | xs, [] => xs
  | x :: xs, y :: ys =>
    if x.2 ≤ y.2 then x :: recMerge xs (y :: ys) else y :: recMerge (x :: xs) ys
termination_by xs ys => xs.length + ys.length

/-- Embedding of `Crawler.do_records` (src/kmermaid/join.py, lines 63-93)
restricted to the claim's situation `doSort = False`: each batch
contributes its records in `record_gen` order and the streams are merged
keyed on the sequence. -/
def doRecords (batches : List (List CrawlRec)) : List CrawlRec :=
  batches.foldr recMerge []

/-- Run-length grouping loop of `Crawler.do_batch` (src/kmermaid/join.py,
lines 95-130): accumulate headers while the sequence stays equal, emit a
`(current_headers, current_seq)` group at each change and at the end. -/
def groupGo : Str → List Str → List CrawlRec → List (List Str × Str)
  | cur, acc, [] => [(acc, cur)]
  | cur, acc, (h, s) :: rest =>
    if cur = s then groupGo cur (acc ++ [h]) rest
    else (acc, cur) :: groupGo s [h] rest

/-- Embedding of `Crawler.do_batch` (src/kmermaid/join.py, lines 95-130):
take the first merged record (if none, log and emit nothing), then group
the rest by equal sequence. -/
def doBatch (batches : List (List CrawlRec)) : List (List Str × Str) :=
  match doRecords batches with
  | [] => []
  | (h, s) :: rest => groupGo s [h] rest

lemma recMerge_nil_right (xs : List CrawlRec) : recMerge xs [] = xs := by
  cases xs <;> simp [recMerge]

lemma recMerge_perm : ∀ xs ys : List CrawlRec, (recMerge xs ys).Perm (xs ++ ys) := by
  intro xs ys
  induction xs, ys using recMerge.induct with
  | case1 ys => simp [recMerge]
  | case2 xs _ => rw [recMerge_nil_right, List.append_nil]
  | case3 x xs y ys hle ih =>
    rw [recMerge, if_pos hle]
    exact (ih.cons x).trans (List.Perm.refl _)
  | case4 x xs y ys hle ih =>
    rw [recMerge, if_neg hle]
    exact (ih.cons y).trans List.perm_middle.symm

lemma recMerge_sorted :
    ∀ xs ys : List CrawlRec,
      xs.Pairwise (fun a b => a.2 ≤ b.2) → ys.Pairwise (fun a b => a.2 ≤ b.2) →
      (recMerge xs ys).Pairwise (fun a b => a.2 ≤ b.2) := by
  intro xs ys
  induction xs, ys using recMerge.induct with
  | case1 ys => intro _ h; simpa [recMerge]
  | case2 xs _ => intro h _; rw [recMerge_nil_right]; exact h
  | case3 x xs y ys hle ih =>
    intro hx hy
    rw [recMerge, if_pos hle]
    rw [List.pairwise_cons] at hx
    refine List.Pairwise.cons ?_ (ih hx.2 hy)
    intro z hz
    rw [(recMerge_perm xs (y :: ys)).mem_iff, List.mem_append] at hz
    rcases hz with hz | hz
    · exact hx.1 z hz
    · rw [List.pairwise_cons] at hy
      rcases List.mem_cons.mp hz with rfl | hz
      · exact hle
      · exact le_trans hle (hy.1 z hz)
  | case4 x xs y ys hle ih =>
    intro hx hy
    rw [recMerge, if_neg hle]
    rw [List.pairwise_cons] at hy
    refine List.Pairwise.cons ?_ (ih hx hy.2)
    intro z hz
    rw [(recMerge_perm (x :: xs) ys).mem_iff, List.mem_append] at hz
    have hyx : y.2 ≤ x.2 := le_of_not_le hle
    rcases hz with hz | hz
    · rw [List.pairwise_cons] at hx
      rcases List.mem_cons.mp hz with rfl | hz
      · exact hyx
      · exact le_trans hyx (hx.1 z hz)
    · exact hy.1 z hz

lemma doRecords_perm (batches : List (List CrawlRec)) :
    (doRecords batches).Perm batches.flatten := by
  induction batches with
  | nil => simp [doRecords]
  | cons b bs ih =>
    rw [doRecords, List.foldr_cons, List.flatten_cons]
    exact (recMerge_perm b _).trans (List.Perm.append_left b ih)

lemma doRecords_sorted (batches : List (List CrawlRec))
    (hs : ∀ b ∈ batches, b.Pairwise (fun a b => a.2 ≤ b.2)) :
    (doRecords batches).Pairwise (fun a b => a.2 ≤ b.2) := by
  induction batches with
  | nil => simp [doRecords]
  | cons b bs ih =>
    rw [doRecords, List.foldr_cons]
    exact recMerge_sorted _ _ (hs b (by simp))
      (ih (fun b' hb' => hs b' (by simp [hb'])))

lemma groupGo_flatten :
    ∀ (l : List CrawlRec) (cur : Str) (acc : List Str),
      (groupGo cur acc l).flatMap (fun g => g.1.map (fun h => (h, g.2)))
        = acc.map (fun h => (h, cur)) ++ l := by
  intro l
  induction l with
  | nil => intro cur acc; simp [groupGo]
  | cons e rest ih =>
    intro cur acc
    obtain ⟨h, s⟩ := e
    rw [groupGo]
    by_cases hcs : cur = s
    · subst hcs
      rw [if_pos rfl, ih]
      simp
    · rw [if_neg hcs]
      simp [ih]

lemma groupGo_first :
    ∀ (l : List CrawlRec) (cur : Str) (acc : List Str),
      ∃ hs rest, groupGo cur acc l = (hs, cur) :: rest := by
  intro l
  induction l with
  | nil => intro cur acc; exact ⟨acc, [], rfl⟩
  | cons e rest ih =>
    intro cur acc
    obtain ⟨h, s⟩ := e
    rw [groupGo]
    by_cases hcs : cur = s
    · subst hcs; rw [if_pos rfl]; exact ih _ _
    · rw [if_neg hcs]; exact ⟨acc, _, rfl⟩

lemma groupGo_chain :
    ∀ (l : List CrawlRec) (cur : Str) (acc : List Str),
      l.Pairwise (fun a b => a.2 ≤ b.2) → (∀ e ∈ l, cur ≤ e.2) →
      List.Chain' (fun g g' : List Str × Str => g.2 < g'.2) (groupGo cur acc l) := by
  intro l
  induction l with
  | nil => intro cur acc _ _; simp [groupGo]
  | cons e rest ih =>
    intro cur acc hp hcur
    obtain ⟨h, s⟩ := e
    rw [List.pairwise_cons] at hp
    rw [groupGo]
    by_cases hcs : cur = s
    · subst hcs
      rw [if_pos rfl]
      exact ih _ _ hp.2 (fun e he => hp.1 e he)
    · rw [if_neg hcs]
      have hlt : cur < s := lt_of_le_of_ne (hcur (h, s) (by simp)) hcs
      obtain ⟨hs2, rest2, heq⟩ := groupGo_first rest s [h]
      rw [heq]
      exact List.Chain'.cons (by simpa using hlt)
        (heq ▸ ih _ _ hp.2 (fun e he => hp.1 e he))

/-- Claim C2: for every list of input batches each already sorted by
`seq`, `Crawler.do_batch` emits groups `(headers, seq)` whose `seq`
values are strictly increasing; flattening the groups back into
`(header, seq)` records recovers the stable k-way merge of the batch
streams exactly (so every record lands in precisely the group of its
sequence, and headers inside a group keep the stable merge order); the
merge itself is a permutation of the concatenated batches; and when all
batches are empty no group is emitted. -/
theorem claim_C2 (batches : List (List CrawlRec))
    (hs : ∀ b ∈ batches, b.Pairwise (fun a b => a.2 ≤ b.2)) :
    List.Chain' (fun g g' : List Str × Str => g.2 < g'.2) (doBatch batches)
    ∧ (doBatch batches).flatMap (fun g => g.1.map (fun h => (h, g.2)))
        = doRecords batches
    ∧ (doRecords batches).Perm batches.flatten
    ∧ (batches.flatten = [] → doBatch batches = []) := by
  have hperm := doRecords_perm batches
  have hsorted := doRecords_sorted batches hs
  refine ⟨?_, ?_, hperm, ?_⟩
  · rw [doBatch]
    rcases hM : doRecords batches with _ | ⟨⟨h, s⟩, rest⟩
    · simp
    · rw [hM, List.pairwise_cons] at hsorted
      exact groupGo_chain rest s [h] hsorted.2 (fun e he => hsorted.1 e he)
  · rw [doBatch]
    rcases hM : doRecords batches with _ | ⟨⟨h, s⟩, rest⟩
    · simp
    · rw [groupGo_flatten]
      simp
  · intro hflat
    have : doRecords batches = [] := by
      have := hperm
      rw [hflat] at this
      exact List.Perm.eq_nil this
    rw [doBatch, this]

/-- Witness for claim C2 on two concrete sorted batches. -/
theorem claim_C2_witness :
    (∀ b ∈ [[((['h','1'] : Str), (['A','A'] : Str)), (['h','2'], ['A','B'])],
            [(['h','3'], ['A','A'])]],
        b.Pairwise (fun a b : CrawlRec => a.2 ≤ b.2))
    ∧ List.Chain' (fun g g' : List Str × Str => g.2 < g'.2)
        (doBatch [[(['h','1'], ['A','A']), (['h','2'], ['A','B'])],
                  [(['h','3'], ['A','A'])]]) :=
  ⟨by decide,
    (claim_C2 [[(['h','1'], ['A','A']), (['h','2'], ['A','B'])],
               [(['h','3'], ['A','A'])]] (by decide)).1⟩

/-! ## Batch container (src/kmermaid/batch.py, `Batch`) -/

/-- Error kinds of `Batch.add` (src/kmermaid/batch.py): `AssertionError`
"this batch is full." and "this batch has been stored locally.". -/
inductive BatchErr
  | full
  | writtenImmutable
deriving DecidableEq, Repr

/-- Embedding of the in-memory `Batch` (src/kmermaid/batch.py).  Fields:
`size` is the capacity `__size`, `records` the `__records` array of
`Optional` slots, `i` the cursor `_i` (`current_size`), `remaining` the
`_remaining` counter, `written` the `_written` flag, and `file` the
contents of the temp file, represented as the list of records it
serializes (record (de)serialization — `as_fasta`/`from_fasta` resp.
`as_text`/`from_text` — is assumed to round-trip, so the file is kept at
the record level). -/
structure PyBatch (α : Type) where
  size : Nat
  records : List (Option α)
  i : Nat
  remaining : Nat
  written : Bool
  file : List α
deriving DecidableEq, Repr

/-- Embedding of `Batch.__init__` (src/kmermaid/batch.py, lines 50-68):
an empty batch of the given capacity (`__init__` additionally asserts
`size ≥ 1`; callers below only use positive sizes). -/
def PyBatch.new (α : Type) (size : Nat) : PyBatch α :=
  ⟨size, List.replicate size none, 0, size, false, []⟩

/-- Embedding of `Batch.add` (src/kmermaid/batch.py, lines 220-238): fail
if full (`remaining == 0`) or written, else store the record at cursor
`_i` and advance.  The record-type check `check_record` is enforced by
typing. -/
def PyBatch.add {α : Type} (b : PyBatch α) (r : α) : Except BatchErr (PyBatch α) :=
  if b.remaining = 0 then .error .full
  else if b.written then .error .writtenImmutable
  else .ok { b with
    records := b.records.set b.i (some r)
    i := b.i + 1
    remaining := b.remaining - 1 }

/-- Embedding of `Batch.add_all` (src/kmermaid/batch.py, lines 240-247):
repeated `add`. -/
def PyBatch.addAll {α : Type} (b : PyBatch α) (rs : List α) : Except BatchErr (PyBatch α) :=
  rs.foldlM PyBatch.add b

/-- Embedding of `Batch.record_gen` (src/kmermaid/batch.py, lines
195-208): when written, parse the records back from the temp file;
otherwise yield the non-`None` in-memory slots in order. -/
def PyBatch.recordGen {α : Type} (b : PyBatch α) : List α :=
  if b.written then b.file else b.records.filterMap id

instance decRelKeyLe {α : Type} (key : α → Str) :
    DecidableRel (fun a b : α => key a ≤ key b) :=
  fun a b => inferInstanceAs (Decidable (key a ≤ key b))

/-- Embedding of `Batch.sorted` (src/kmermaid/batch.py, lines 156-168):
`sorted(self.record_gen(smart), key=lambda x: getattr(x, self.keyAttr))`.
Python's `sorted` is the stable sort by the key attribute (`seq` by
default); it is modelled by the stable `List.insertionSort` on the
key-comparison relation. -/
def PyBatch.sortedRecs {α : Type} (key : α → Str) (b : PyBatch α) : List α :=
  List.insertionSort (fun x y => key x ≤ key y) b.recordGen

/-- Embedding of `Batch.to_write` (src/kmermaid/batch.py, lines 249-269):
the records to serialize, sorted iff `doSort` (the `fwrite` string
conversion is kept at the record level). -/
def PyBatch.toWrite {α : Type} (key : α → Str) (doSort : Bool) (b : PyBatch α) : List α :=
  if doSort then b.sortedRecs key else b.recordGen

/-- Embedding of `Batch.write` (src/kmermaid/batch.py, lines 271-286):
when not yet written, or when `force` is set, serialize `to_write doSort`
to the temp file, release the in-memory collection (`__records = [None]`)
and set `written`. -/
def PyBatch.write {α : Type} (key : α → Str) (doSort force : Bool) (b : PyBatch α) :
    PyBatch α :=
  if !b.written || force then
    { b with file := b.toWrite key doSort, records := [none], written := true }
  else b

/-- Embedding of `Batch.from_file` (src/kmermaid/batch.py, lines 288-334):
bind an existing file of `n` parseable records (`recs`) to a batch with
`size = max(2, n)`, cursor `_i = size`, `_remaining = 0`, `_written =
True`.  (`BatchAppendable.from_file`, lines 482-524, sets the same
counters.) -/
def PyBatch.fromFile {α : Type} (recs : List α) : PyBatch α :=
  ⟨max 2 recs.length, List.replicate (max 2 recs.length) none,
    max 2 recs.length, 0, true, recs⟩

/-- Embedding of `BatcherBase.write_all` (src/kmermaid/batcher.py, lines
134-154).  Python calls `self.collection[bi].write(f, doSort)` for every
batch with `current_size != 0`, so the serializer-name string `f` is
passed positionally into `Batch.write`'s `doSort` parameter (where only
its truthiness — non-emptiness — matters) and `write_all`'s `doSort`
lands in `force`. -/
def writeAll {α : Type} (key : α → Str) (f : Str) (doSort : Bool)
    (bs : List (PyBatch α)) : List (PyBatch α) :=
  bs.map (fun b => if b.i ≠ 0 then b.write key (!f.isEmpty) doSort else b)

/-- Proof-side description of a partly filled batch: the first
`pre.length` slots hold `pre`, the rest are `None`, and the cursor and
`remaining` counters agree with it. -/
def midBatch {α : Type} (pre : List α) (size : Nat) : PyBatch α :=
  ⟨size, pre.map some ++ List.replicate (size - pre.length) none,
    pre.length, size - pre.length, false, []⟩

lemma add_midBatch {α : Type} (pre : List α) (size : Nat) (r : α)
    (h : pre.length + 1 ≤ size) :
    PyBatch.add (midBatch pre size) r = .ok (midBatch (pre ++ [r]) size) := by
  rw [midBatch, PyBatch.add]
  rw [if_neg (by simp only []; omega), if_neg (by simp)]
  have hrep : size - pre.length = (size - (pre.length + 1)) + 1 := by omega
  rw [hrep, List.replicate_succ,
    List.set_append_right _ _ (by simp),
    show pre.length - (pre.map some).length = 0 from by simp,
    List.set_cons_zero]
  simp [midBatch]

lemma addAll_midBatch {α : Type} :
    ∀ (rs pre : List α) (size : Nat), pre.length + rs.length ≤ size →
      PyBatch.addAll (midBatch pre size) rs = .ok (midBatch (pre ++ rs) size) := by
  intro rs
  induction rs with
  | nil =>
    intro pre size _
    simp only [PyBatch.addAll, List.foldlM_nil, List.append_nil]
    rfl
  | cons r rs ih =>
    intro pre size hle
    simp only [List.length_cons] at hle
    rw [PyBatch.addAll, List.foldlM_cons, add_midBatch pre size r (by omega),
      show (Except.ok (midBatch (pre ++ [r]) size) : Except BatchErr (PyBatch α))
          = pure (midBatch (pre ++ [r]) size) from rfl,
      pure_bind]
    have := ih (pre ++ [r]) size (by simp only [List.length_append,
      List.length_cons, List.length_nil]; omega)
    rw [PyBatch.addAll] at this
    rw [this, List.append_assoc, List.singleton_append]

lemma filter_orderedInsert {α : Type} (key : α → Str) (s : Str) (a : α) :
    ∀ l : List α,
      (List.orderedInsert (fun x y => key x ≤ key y) a l).filter (fun r => key r = s)
        = if key a = s then a :: l.filter (fun r => key r = s)
          else l.filter (fun r => key r = s) := by
  intro l
  induction l with
  | nil =>
    by_cases h : key a = s <;> simp [List.orderedInsert, h]
  | cons b l ih =>
    rw [List.orderedInsert]
    by_cases hab : key a ≤ key b
    · rw [if_pos hab]
      by_cases ha : key a = s <;> simp [List.filter_cons, ha]
    · rw [if_neg hab]
      by_cases ha : key a = s
      · by_cases hb : key b = s
        · exact absurd (le_of_eq (by rw [ha, hb])) hab
        · simp [List.filter_cons, ha, hb, ih]
      · simp [List.filter_cons, ha, ih]

lemma filter_insertionSort {α : Type} (key : α → Str) (s : Str) :
    ∀ l : List α,
      (List.insertionSort (fun x y => key x ≤ key y) l).filter (fun r => key r = s)
        = l.filter (fun r => key r = s) := by
  intro l
  induction l with
  | nil => rfl
  | cons a l ih =>
    simp only [List.insertionSort]
    rw [filter_orderedInsert, ih]
    by_cases ha : key a = s <;> simp [List.filter_cons, ha]

/-- Claim C3: for every Batch built by adding records `r1..rn` in some
order (with `n ≤ capacity`), after `write(doSort=False)` the records read
back equal the add order; after `write(doSort=True)` they are the add
order stably sorted by the record's key attribute (`seq`): sorted by the
key, with the records of each key value kept in add order, a permutation
of the add order.  In both cases the number of records read back equals
`current_size`, which equals `n`. -/
theorem claim_C3 {α : Type} (key : α → Str) (size : Nat) (rs : List α)
    (h : rs.length ≤ size) :
    ∃ B : PyBatch α,
      PyBatch.addAll (PyBatch.new α size) rs = .ok B
      ∧ B.i = rs.length
      ∧ (B.write key false false).recordGen = rs
      ∧ (B.write key true false).recordGen.Pairwise (fun a b => key a ≤ key b)
      ∧ (∀ s : Str, (B.write key true false).recordGen.filter (fun r => key r = s)
          = rs.filter (fun r => key r = s))
      ∧ (B.write key true false).recordGen.Perm rs
      ∧ (B.write key false false).recordGen.length = B.i
      ∧ (B.write key true false).recordGen.length = B.i := by
  have hnew : PyBatch.new α size = midBatch [] size := by
    simp [PyBatch.new, midBatch]
  have hadd := addAll_midBatch rs [] size (by simpa)
  simp only [List.nil_append] at hadd
  have hgen : (midBatch rs size).recordGen = rs := by
    simp [PyBatch.recordGen, midBatch, List.filterMap_append, List.filterMap_map,
      Function.comp_def]
  have hwu : ∀ doSort : Bool,
      ((midBatch rs size).write key doSort false).recordGen
        = (midBatch rs size).toWrite key doSort := by
    intro doSort
    rw [PyBatch.write, if_pos (by rfl)]
    simp [PyBatch.recordGen]
  have hw0 : ((midBatch rs size).write key false false).recordGen = rs := by
    rw [hwu false]
    simpa [PyBatch.toWrite] using hgen
  have hw1 : ((midBatch rs size).write key true false).recordGen
      = List.insertionSort (fun x y => key x ≤ key y) rs := by
    rw [hwu true]
    simp only [PyBatch.toWrite, if_pos, PyBatch.sortedRecs, hgen]
  haveI : IsTotal α (fun x y => key x ≤ key y) := ⟨fun a b => le_total _ _⟩
  haveI : IsTrans α (fun x y => key x ≤ key y) := ⟨fun _ _ _ h1 h2 => le_trans h1 h2⟩
  refine ⟨midBatch rs size, by rw [hnew]; exact hadd, rfl, hw0, ?_, ?_, ?_, ?_, ?_⟩
  · rw [hw1]
    exact List.sorted_insertionSort (fun x y : α => key x ≤ key y) rs
  · intro s
    rw [hw1]
    exact filter_insertionSort key s rs
  · rw [hw1]
    exact List.perm_insertionSort _ rs
  · rw [hw0]
    rfl
  · rw [hw1]
    exact (List.perm_insertionSort _ rs).length_eq

/-- Witness for claim C3 with two records (`"b"` then `"a"`, keyed by
identity) in a capacity-2 batch. -/
theorem claim_C3_witness :
    ([['b'],['a']] : List Str).length ≤ 2
    ∧ ∃ B : PyBatch Str,
        PyBatch.addAll (PyBatch.new Str 2) [['b'],['a']] = .ok B
        ∧ B.i = ([['b'],['a']] : List Str).length
        ∧ (B.write id false false).recordGen = [['b'],['a']]
        ∧ (B.write id true false).recordGen.Pairwise (fun a b => id a ≤ id b)
        ∧ (∀ s : Str, (B.write id true false).recordGen.filter (fun r => id r = s)
            = ([['b'],['a']] : List Str).filter (fun r => id r = s))
        ∧ (B.write id true false).recordGen.Perm [['b'],['a']]
        ∧ (B.write id false false).recordGen.length = B.i
        ∧ (B.write id true false).recordGen.length = B.i :=
  ⟨by decide, claim_C3 id 2 [['b'],['a']] (by decide)⟩

/-- Claim C8: `Batch.from_file` on a file of `n` parseable records yields
a batch with `written = True`, `remaining = 0` and `current_size =
max(2, n)`; for `n < 2` the `current_size` exceeds (hence differs from)
the actual record count. -/
theorem claim_C8 {α : Type} (recs : List α) :
    (PyBatch.fromFile recs).written = true
    ∧ (PyBatch.fromFile recs).remaining = 0
    ∧ (PyBatch.fromFile recs).i = max 2 recs.length
    ∧ (PyBatch.fromFile recs).file.length = recs.length
    ∧ (recs.length < 2 →
        (PyBatch.fromFile recs).i ≠ recs.length
        ∧ recs.length < (PyBatch.fromFile recs).i) := by
  refine ⟨rfl, rfl, rfl, rfl, fun h => ?_⟩
  constructor <;> simp [PyBatch.fromFile] <;> omega

/-- Witness for claim C8 on a one-record file: `current_size = 2 ≠ 1`. -/
theorem claim_C8_witness :
    ([(5 : Nat)] : List Nat).length < 2
    ∧ (PyBatch.fromFile [(5 : Nat)]).i ≠ ([(5 : Nat)] : List Nat).length :=
  ⟨by decide, ((claim_C8 [(5 : Nat)]).2.2.2.2 (by decide)).1⟩

/-- Claim C9: `BatcherBase.write_all` calls `Batch.write(f, doSort)`, so
the serializer-name string `f` lands in `write`'s `doSort` parameter and
`write_all`'s `doSort` argument lands in `force`.  A non-empty `f` is
truthy, so every non-empty batch is written sorted, and calling
`write_all` with `doSort=True` additionally force-rewrites batches that
were already written (while with `doSort=False` an already-written batch
is left untouched). -/
theorem claim_C9 {α : Type} (key : α → Str) (f : Str) (doSort : Bool)
    (bs : List (PyBatch α)) (hf : f ≠ []) :
    writeAll key f doSort bs
        = bs.map (fun b => if b.i ≠ 0 then b.write key true doSort else b)
    ∧ (∀ b ∈ bs, (b.written = false ∨ doSort = true) →
        (b.write key true doSort).written = true
        ∧ (b.write key true doSort).file
            = List.insertionSort (fun x y => key x ≤ key y) b.recordGen)
    ∧ (∀ b ∈ bs, b.written = true → doSort = false → b.write key true doSort = b) := by
  have htru : (!f.isEmpty) = true := by
    cases f with
    | nil => exact absurd rfl hf
    | cons c cs => rfl
  refine ⟨?_, ?_, ?_⟩
  · apply List.map_congr_left
    intro b _
    rw [htru]
  · intro b _ hcond
    have hif : (!b.written || doSort) = true := by
      rcases hcond with h | h <;> simp [h]
    rw [PyBatch.write, if_pos hif]
    exact ⟨rfl, rfl⟩
  · intro b _ hw hds
    rw [PyBatch.write, if_neg (by simp [hw, hds])]

/-- Witness for claim C9 on a single unwritten one-record batch and the
default serializer name. -/
theorem claim_C9_witness :
    ((['a'] : Str) ≠ [])
    ∧ writeAll id ['a'] true [(⟨1, [some (['x'] : Str)], 1, 0, false, []⟩ : PyBatch Str)]
        = [(⟨1, [some (['x'] : Str)], 1, 0, false, []⟩ : PyBatch Str)].map
            (fun b => if b.i ≠ 0 then b.write id true true else b) :=
  ⟨by decide,
    (claim_C9 id ['a'] true [(⟨1, [some (['x'] : Str)], 1, 0, false, []⟩ : PyBatch Str)]
      (by decide)).1⟩

/-! ## Masked vector-count reducer (src/kmermaid/join.py, `KJoiner`) -/

/-- Embedding of `SequenceCoords` (src/kmermaid/seq.py): the parsed form
`ref:start-end:strand` of a k-mer header.  The Python field `end` is
called `stop` here. -/
structure SeqCoords where
  ref : Str
  start : Nat
  stop : Nat
  strand : Strand
deriving DecidableEq, Repr

/-- One `AbundanceVector.add_count(ref, strand, pos, count, k)` call
issued by a reducer, recorded with its arguments. -/
structure AddCountCall where
  ref : Str
  strand : Str
  pos : Nat
  count : Nat
  k : Nat
deriving DecidableEq, Repr

instance decRelStrLe : DecidableRel (fun a b : Str => a ≤ b) :=
  fun a b => inferInstanceAs (Decidable (a ≤ b))

/-- Embedding of `np.unique` over the group's reference names: the
distinct values in sorted order.  (`np.unique(..., return_counts=True)`
additionally returns, aligned with this list, the multiplicity of each
value; the multiplicities are recovered with `List.count` below.) -/
def npUniqueRefs (refs : List Str) : List Str :=
  List.insertionSort (fun a b : Str => a ≤ b) refs.dedup

/-- Embedding of `KJoiner.join_vector_count_masked` (src/kmermaid/join.py,
lines 310-335), recording the `add_count` calls it issues.

Python:
```
coords = [SequenceCoords.from_str(h) for h in headers]
if len(coords) != 1:
    refList, refCounts = np.unique([h.ref for h in coords], return_counts=True)
    if len(refList) != 1:
        for h in coords:
            hcount = refCounts[refList != h.ref].sum()
            vector.add_count(h.ref, h.strand.label, int(h.start), hcount, len(seq))
```
Headers are taken already parsed (`coords`); `refCounts[refList !=
h.ref].sum()` is the sum, over the distinct references other than
`h.ref`, of their multiplicity among the group's references. -/
def joinVectorCountMasked (coords : List SeqCoords) (seq : Str) : List AddCountCall :=
  if coords.length ≠ 1 then
    let refList := npUniqueRefs (coords.map SeqCoords.ref)
    if refList.length ≠ 1 then
      coords.map (fun h =>
        ⟨h.ref, h.strand.label, h.start,
          ((refList.filter (fun r => r ≠ h.ref)).map
            (fun r => (coords.map SeqCoords.ref).count r)).sum,
          seq.length⟩)
    else []
  else []

lemma dedup_of_all_eq {r : Str} :
    ∀ l : List Str, l ≠ [] → (∀ x ∈ l, x = r) → l.dedup = [r] := by
  intro l
  induction l with
  | nil => intro h _; exact absurd rfl h
  | cons x xs ih =>
    intro _ hall
    have hx : x = r := hall x (by simp)
    subst hx
    cases xs with
    | nil => simp
    | cons y ys =>
      have hy : y = x := (hall y (by simp)).trans (hall x (by simp)).symm
      rw [List.dedup_cons_of_mem (by simp [hy])]
      exact ih (by simp) (fun z hz => hall z (by simp [hz]))

lemma count_beq_inst (x : Str) : ∀ l : List Str,
    @List.count Str List.instBEq x l = @List.count Str instBEqOfDecidableEq x l := by
  intro l
  induction l with
  | nil => rfl
  | cons y l ih =>
    rw [@List.count_cons Str List.instBEq, @List.count_cons Str instBEqOfDecidableEq, ih]
    congr 1
    simp [beq_eq_decide]

lemma sum_counts_ne (refs : List Str) (a : Str) :
    (((npUniqueRefs refs).filter (fun r => r ≠ a)).map
        (fun r => refs.count r)).sum
      = (refs.filter (fun r => r ≠ a)).length := by
  have hperm1 : ((npUniqueRefs refs).filter (fun r => r ≠ a)).Perm
      (refs.dedup.filter (fun r => r ≠ a)) :=
    (List.perm_insertionSort _ refs.dedup).filter _
  have hperm2 : (refs.dedup.filter (fun r => r ≠ a)).Perm
      ((refs.filter (fun r => r ≠ a)).dedup) := by
    rw [List.perm_ext_iff_of_nodup
      ((List.nodup_dedup refs).filter _) (List.nodup_dedup _)]
    intro x
    simp [List.mem_filter, List.mem_dedup]
  have hsum : (((npUniqueRefs refs).filter (fun r => r ≠ a)).map
      (fun r => refs.count r)).sum
        = (((refs.filter (fun r => r ≠ a)).dedup).map
            (fun r => refs.count r)).sum :=
    ((hperm1.trans hperm2).map _).sum_eq
  rw [hsum]
  have hcongr : ((refs.filter (fun r => r ≠ a)).dedup).map (fun r => refs.count r)
      = ((refs.filter (fun r => r ≠ a)).dedup).map
          (fun r => (refs.filter (fun x => x ≠ a)).count r) := by
    apply List.map_congr_left
    intro r hr
    have hmem := List.mem_dedup.mp hr
    have hra : r ≠ a := by simpa using (List.mem_filter.mp hmem).2
    exact (List.count_filter (by simp [hra])).symm
  rw [hcongr]
  rw [List.map_congr_left
    (fun r _ => count_beq_inst r (refs.filter (fun x => x ≠ a)))]
  exact List.sum_map_count_dedup_eq_length (refs.filter (fun r => r ≠ a))

/-- Claim C4: for every group passed to the `VEC_COUNT_MASKED` reducer —
headers taken in parsed form — if the group has exactly one header, or
all headers carry the same `ref`, no `add_count` call is made; otherwise
each header `h` produces exactly the call `add_count(h.ref,
h.strand.label, h.start, hcount_h, len(seq))` where `hcount_h` is the
number of headers in the group whose `ref` differs from `h.ref`. -/
theorem claim_C4 (coords : List SeqCoords) (seq : Str) :
    ((coords.length = 1 ∨ ∃ r, ∀ c ∈ coords, c.ref = r) →
      joinVectorCountMasked coords seq = [])
    ∧ (coords.length ≠ 1 → (¬ ∃ r, ∀ c ∈ coords, c.ref = r) →
      joinVectorCountMasked coords seq
        = coords.map (fun h =>
            ⟨h.ref, h.strand.label, h.start,
              (coords.filter (fun c => c.ref ≠ h.ref)).length, seq.length⟩)) := by
  constructor
  · rintro (h1 | ⟨r, hall⟩)
    · rw [joinVectorCountMasked, if_neg (by simp [h1])]
    · by_cases hlen : coords.length = 1
      · rw [joinVectorCountMasked, if_neg (by simp [hlen])]
      · cases hc : coords with
        | nil => subst hc; rfl
        | cons c cs =>
          subst hc
          rw [joinVectorCountMasked, if_pos hlen, if_neg]
          simp only [ne_eq, not_not, npUniqueRefs]
          rw [dedup_of_all_eq ((c :: cs).map SeqCoords.ref) (by simp)
            (fun x hx => by
              obtain ⟨c', hc', rfl⟩ := List.mem_map.mp hx
              exact hall c' hc')]
          rfl
  · intro hlen hnall
    rw [joinVectorCountMasked, if_pos hlen, if_pos]
    · apply List.map_congr_left
      intro h _
      have := sum_counts_ne (coords.map SeqCoords.ref) h.ref
      rw [this, show (coords.map SeqCoords.ref).filter (fun r => r ≠ h.ref)
            = (coords.filter (fun c => c.ref ≠ h.ref)).map SeqCoords.ref from ?_]
      · simp
      · rw [List.filter_map]
        rfl
    · intro habs
      obtain ⟨r0, hr0⟩ := List.length_eq_one.mp habs
      apply hnall
      refine ⟨r0, fun c hc => ?_⟩
      have hmem : c.ref ∈ npUniqueRefs (coords.map SeqCoords.ref) := by
        rw [npUniqueRefs, (List.perm_insertionSort _ _).mem_iff, List.mem_dedup]
        exact List.mem_map.mpr ⟨c, hc, rfl⟩
      rw [hr0] at hmem
      simpa using hmem

/-- Witness for claim C4 on a three-header group spanning two references. -/
theorem claim_C4_witness :
    (([⟨['r','1'], 0, 2, .plus⟩, ⟨['r','2'], 0, 2, .plus⟩,
        ⟨['r','1'], 1, 3, .plus⟩] : List SeqCoords).length ≠ 1)
    ∧ joinVectorCountMasked
        [⟨['r','1'], 0, 2, .plus⟩, ⟨['r','2'], 0, 2, .plus⟩,
          ⟨['r','1'], 1, 3, .plus⟩] ['A','A']
      = ([⟨['r','1'], 0, 2, .plus⟩, ⟨['r','2'], 0, 2, .plus⟩,
          ⟨['r','1'], 1, 3, .plus⟩] : List SeqCoords).map (fun h =>
            ⟨h.ref, h.strand.label, h.start,
              (([⟨['r','1'], 0, 2, .plus⟩, ⟨['r','2'], 0, 2, .plus⟩,
                  ⟨['r','1'], 1, 3, .plus⟩] : List SeqCoords).filter
                (fun c => c.ref ≠ h.ref)).length, (['A','A'] : Str).length⟩) :=
  ⟨by decide,
    (claim_C4 [⟨['r','1'], 0, 2, .plus⟩, ⟨['r','2'], 0, 2, .plus⟩,
        ⟨['r','1'], 1, 3, .plus⟩] ['A','A']).2 (by decide)
      (by
        rintro ⟨r, hall⟩
        have h1 := hall ⟨['r','1'], 0, 2, .plus⟩ (by simp)
        have h2 := hall ⟨['r','2'], 0, 2, .plus⟩ (by simp)
        exact absurd (h1.trans h2.symm) (by decide))⟩

/-! ## Abundance vector (src/kmermaid/abundance.py, `AbundanceVector`) -/

/-- Error kinds of `AbundanceVector.add_count`: the `check_length`
assertion (spec error kind `InconsistentK`) and the non-zero-cell
assertion (spec error kind `AbundanceConflict`). -/
inductive AVErr
  | inconsistentK
  | abundanceConflict
deriving DecidableEq, Repr

/-- State of an `AbundanceVector` (src/kmermaid/abundance.py): the set
`_ks` of observed k-mer lengths and the per-`(ref, strand)` integer
vectors (`__data` is the nested dict `ref → strand → ndarray`; it is
flattened to an association list keyed on the `(ref, strand)` pair, which
preserves all per-key observations). -/
structure AVState where
  ks : Finset Nat
  data : List ((Str × Str) × List Nat)
deriving DecidableEq

/-- Dictionary lookup `self.__data[ref][strand]` (None when absent). -/
def getVec (d : List ((Str × Str) × List Nat)) (key : Str × Str) : Option (List Nat) :=
  (d.find? (fun e => e.1 = key)).map (fun e => e.2)

/-- Dictionary update `self.__data[ref][strand] = v` (insert or replace). -/
def setVec : List ((Str × Str) × List Nat) → (Str × Str) → List Nat →
    List ((Str × Str) × List Nat)
  | [], key, v => [(key, v)]
  | e :: es, key, v => if e.1 = key then (key, v) :: es else e :: setVec es key v

/-- Embedding of `AbundanceVectorBase.check_length` (src/kmermaid/
abundance.py, lines 29-38): `_ks.add(k)` (performed even when the check
then fails) followed by the single-length assertion. -/
def checkLength (k : Nat) (st : AVState) : AVState × Option AVErr :=
  ({ st with ks := insert k st.ks },
    if (insert k st.ks).card ≠ 1 then some .inconsistentK else none)

/-- Embedding of `AbundanceVector.add_ref` (src/kmermaid/abundance.py,
lines 129-147): create the `(ref, strand)` vector zero-initialized at
length `size` when absent, or grow it in place (`np.resize`, which keeps
the existing prefix and zero-pads) when `size` exceeds the current
length; otherwise leave it alone. -/
def addRef (ref strand : Str) (size : Nat) (st : AVState) : AVState :=
  match getVec st.data (ref, strand) with
  | none => { st with data := setVec st.data (ref, strand) (List.replicate size 0) }
  | some v =>
    if size > v.length then
      { st with
        data := setVec st.data (ref, strand) (v ++ List.replicate (size - v.length) 0) }
    else st

/-- Embedding of `AbundanceVector.add_count` (src/kmermaid/abundance.py,
lines 103-127): `check_length(k)`, then `add_ref(ref, strand, pos + 1)`,
then — unless `replace` — the assertion that the cell at `pos` is zero,
and finally the cell write.  The returned pair is the state after the
call together with the error raised, if any (Python mutates in place, so
the state changes made before a failing assertion persist). -/
def addCount (ref strand : Str) (pos count k : Nat) (replace : Bool)
    (st : AVState) : AVState × Option AVErr :=
  match checkLength k st with
  | (st1, some e) => (st1, some e)
  | (st1, none) =>
    let st2 := addRef ref strand (pos + 1) st1
    let v := (getVec st2.data (ref, strand)).getD []
    if replace = false ∧ v.getD pos 0 ≠ 0 then
      (st2, some .abundanceConflict)
    else
      ({ st2 with data := setVec st2.data (ref, strand) (v.set pos count) }, none)

/-- Observation: the value of the cell `(ref, strand, pos)` (0 when the
vector is absent or shorter than `pos + 1`, matching the zero-initialized
growth). -/
def cellVal (st : AVState) (key : Str × Str) (pos : Nat) : Nat :=
  ((getVec st.data key).getD []).getD pos 0

/-- Observation: the current length of the `(ref, strand)` vector
(0 when absent). -/
def vecLen (st : AVState) (key : Str × Str) : Nat :=
  ((getVec st.data key).getD []).length

lemma getVec_setVec_self :
    ∀ (d : List ((Str × Str) × List Nat)) (key : Str × Str) (v : List Nat),
      getVec (setVec d key v) key = some v := by
  intro d
  induction d with
  | nil => intro key v; simp [setVec, getVec, List.find?_cons]
  | cons e es ih =>
    intro key v
    rw [setVec]
    by_cases he : e.1 = key
    · rw [if_pos he]; simp [getVec, List.find?_cons]
    · rw [if_neg he]
      simp only [getVec, List.find?_cons]
      rw [show (decide (e.1 = key)) = false from by simp [he]]
      exact ih key v

lemma getVec_setVec_ne :
    ∀ (d : List ((Str × Str) × List Nat)) (key key' : Str × Str) (v : List Nat),
      key' ≠ key → getVec (setVec d key v) key' = getVec d key' := by
  intro d
  induction d with
  | nil =>
    intro key key' v h
    simp only [setVec, getVec, List.find?_cons]
    rw [show (decide ((key, v).1 = key')) = false from by simp [Ne.symm h]]
  | cons e es ih =>
    intro key key' v h
    rw [setVec]
    by_cases he : e.1 = key
    · rw [if_pos he]
      simp only [getVec, List.find?_cons]
      rw [show (decide ((key, v).1 = key')) = false from by simp [Ne.symm h],
        show (decide (e.1 = key')) = false from by simp [he, Ne.symm h]]
    · rw [if_neg he]
      simp only [getVec, List.find?_cons]
      cases hd : decide (e.1 = key')
      · exact ih key key' v h
      · rfl

lemma getD_append_replicate_zero (v : List Nat) (n j : Nat) :
    (v ++ List.replicate n 0).getD j 0 = v.getD j 0 := by
  rcases lt_or_ge j v.length with h | h
  · rw [List.getD_eq_getElem?_getD, List.getElem?_append_left h,
      ← List.getD_eq_getElem?_getD]
  · rw [List.getD_eq_getElem?_getD, List.getElem?_append_right h,
      List.getElem?_replicate, List.getD_eq_default _ _ h]
    split <;> rfl

lemma addRef_vec (ref strand : Str) (size : Nat) (st : AVState) :
    (getVec (addRef ref strand size st).data (ref, strand)).getD []
      = (getVec st.data (ref, strand)).getD []
          ++ List.replicate (size - ((getVec st.data (ref, strand)).getD []).length) 0 := by
  rcases hg : getVec st.data (ref, strand) with _ | v
  · simp [addRef, hg, getVec_setVec_self]
  · simp only [addRef, hg]
    by_cases hsz : size > v.length
    · rw [if_pos hsz]
      simp [getVec_setVec_self]
    · rw [if_neg hsz]
      rw [hg]
      simp only [Option.getD_some]
      rw [show size - v.length = 0 from by omega]
      simp

lemma addRef_other (ref strand : Str) (size : Nat) (st : AVState)
    (key' : Str × Str) (h : key' ≠ (ref, strand)) :
    getVec (addRef ref strand size st).data key' = getVec st.data key' := by
  rcases hg : getVec st.data (ref, strand) with _ | v
  · simp only [addRef, hg]
    exact getVec_setVec_ne _ _ _ _ h
  · simp only [addRef, hg]
    by_cases hsz : size > v.length
    · rw [if_pos hsz]
      exact getVec_setVec_ne _ _ _ _ h
    · rw [if_neg hsz]

/-- Claim C5: for every `AbundanceVector` state whose recorded k-length
set is compatible with `k` (empty or `{k}`, the situation the spec fixes
with "all writes share one k"), a call `add_count(ref, strand, pos,
count, k, replace)` first creates or grows the `(ref, strand)` vector to
length at least `pos + 1` — growth never shrinks a vector, preserves
every cell other than `pos`, and leaves all other `(ref, strand)` vectors
untouched; then, when `replace = False`, the call fails with
`AbundanceConflict` if and only if the cell at `pos` currently holds a
non-zero value, and otherwise (in particular always when
`replace = True`) the cell at `pos` is set to `count`. -/
theorem claim_C5 (st : AVState) (ref strand : Str) (pos count k : Nat)
    (replace : Bool) (hk : st.ks = ∅ ∨ st.ks = {k}) :
    pos + 1 ≤ vecLen (addCount ref strand pos count k replace st).1 (ref, strand)
    ∧ vecLen st (ref, strand)
        ≤ vecLen (addCount ref strand pos count k replace st).1 (ref, strand)
    ∧ (∀ j, j ≠ pos →
        cellVal (addCount ref strand pos count k replace st).1 (ref, strand) j
          = cellVal st (ref, strand) j)
    ∧ (∀ key', key' ≠ (ref, strand) →
        getVec (addCount ref strand pos count k replace st).1.data key'
          = getVec st.data key')
    ∧ (replace = false →
        ((addCount ref strand pos count k replace st).2 = some .abundanceConflict
          ↔ cellVal st (ref, strand) pos ≠ 0))
    ∧ ((addCount ref strand pos count k replace st).2 = none →
        cellVal (addCount ref strand pos count k replace st).1 (ref, strand) pos
          = count)
    ∧ (replace = true → (addCount ref strand pos count k replace st).2 = none) := by
  have hcard : (insert k st.ks).card = 1 := by
    rcases hk with h | h <;> rw [h] <;> simp
  have hcheck : checkLength k st = ({ st with ks := insert k st.ks }, none) := by
    rw [checkLength, if_neg (by simp [hcard])]
  rw [show addCount ref strand pos count k replace st
      = (let st2 := addRef ref strand (pos + 1) { st with ks := insert k st.ks }
         let v := (getVec st2.data (ref, strand)).getD []
         if replace = false ∧ v.getD pos 0 ≠ 0 then
           (st2, some .abundanceConflict)
         else
           ({ st2 with data := setVec st2.data (ref, strand) (v.set pos count) },
             none)) from by rw [addCount, hcheck]]
  simp only []
  have hdata1 : ({ st with ks := insert k st.ks } : AVState).data = st.data := rfl
  have hvec := addRef_vec ref strand (pos + 1) { st with ks := insert k st.ks }
  rw [hdata1] at hvec
  have hlen : ((getVec (addRef ref strand (pos + 1)
      { st with ks := insert k st.ks }).data (ref, strand)).getD []).length
        = max ((getVec st.data (ref, strand)).getD []).length (pos + 1) := by
    rw [hvec]
    simp only [List.length_append, List.length_replicate]
    omega
  have hcell : ∀ j, ((getVec (addRef ref strand (pos + 1)
      { st with ks := insert k st.ks }).data (ref, strand)).getD []).getD j 0
        = cellVal st (ref, strand) j := by
    intro j
    rw [hvec, getD_append_replicate_zero]
    rfl
  by_cases hguard : replace = false
      ∧ ((getVec (addRef ref strand (pos + 1)
          { st with ks := insert k st.ks }).data (ref, strand)).getD []).getD pos 0 ≠ 0
  · rw [if_pos hguard]
    refine ⟨?_, ?_, ?_, ?_, ?_, ?_, ?_⟩
    · rw [vecLen, hlen]; omega
    · rw [vecLen, vecLen, hlen]; omega
    · intro j _; exact hcell j
    · intro key' h
      exact addRef_other _ _ _ _ _ h
    · intro _
      constructor
      · intro _
        rw [← hcell pos]
        exact hguard.2
      · intro _; rfl
    · intro h; exact absurd h (by simp)
    · intro h; exact absurd hguard.1 (by simp [h])
  · rw [if_neg hguard]
    have hset : (getVec (setVec (addRef ref strand (pos + 1)
        { st with ks := insert k st.ks }).data (ref, strand)
          (((getVec (addRef ref strand (pos + 1)
            { st with ks := insert k st.ks }).data (ref, strand)).getD []).set pos count))
        (ref, strand)).getD []
          = ((getVec (addRef ref strand (pos + 1)
            { st with ks := insert k st.ks }).data (ref, strand)).getD []).set pos count := by
      rw [getVec_setVec_self]
      rfl
    refine ⟨?_, ?_, ?_, ?_, ?_, ?_, ?_⟩
    · rw [vecLen, hset, List.length_set, hlen]; omega
    · rw [vecLen, vecLen, hset, List.length_set, hlen]; omega
    · intro j hj
      rw [cellVal, hset, List.getD_eq_getElem?_getD,
        List.getElem?_set_ne (Ne.symm hj), ← List.getD_eq_getElem?_getD]
      exact hcell j
    · intro key' h
      rw [show (getVec (setVec (addRef ref strand (pos + 1)
          { st with ks := insert k st.ks }).data (ref, strand) _) key')
          = getVec (addRef ref strand (pos + 1)
            { st with ks := insert k st.ks }).data key' from
        getVec_setVec_ne _ _ _ _ h]
      exact addRef_other _ _ _ _ _ h
    · intro hrep
      constructor
      · intro h; exact absurd h (by simp)
      · intro hne
        exact absurd ⟨hrep, by rw [hcell pos]; exact hne⟩ hguard
    · intro _
      rw [cellVal, hset, List.getD_eq_getElem?_getD,
        List.getElem?_set_self (by rw [hlen]; omega)]
      rfl
    · intro _; rfl

/-- Witness for claim C5: a fresh vector accepts `add_count("r", "+", 2,
5, 3)` and the cell at position 2 becomes 5. -/
theorem claim_C5_witness :
    ((⟨∅, []⟩ : AVState).ks = ∅ ∨ (⟨∅, []⟩ : AVState).ks = {3})
    ∧ cellVal (addCount ['r'] ['+'] 2 5 3 false ⟨∅, []⟩).1 (['r'], ['+']) 2 = 5 :=
  ⟨Or.inl rfl,
    (claim_C5 ⟨∅, []⟩ ['r'] ['+'] 2 5 3 false (Or.inl rfl)).2.2.2.2.2.1 (by decide)⟩

/-! ## Bounded-handle FASTA parser (src/kmermaid/parsers.py,
`SmartFastaParser`) -/

/-- Parser state: the file as its list of lines (each line as returned by
`readline`, i.e. including its trailing newline except possibly the
last), the read position `pos` and the recorded position
`__last_position` measured in lines (every `seek` targets a position
recorded by `tell()` directly after a `readline`, so line granularity is
faithful), and whether the handle is currently closed. -/
structure PState where
  lines : List Str
  pos : Nat
  last : Nat
  closed : Bool
deriving DecidableEq, Repr

/-- Embedding of `SmartFastaParser.__readline`: the next line, or the
empty string at EOF (where `tell()` stays put). -/
def readline (st : PState) : Str × PState :=
  if st.pos < st.lines.length then
    (st.lines.getD st.pos [], { st with pos := st.pos + 1 })
  else ([], st)

/-- Embedding of `SmartFastaParser.__reopen` (src/kmermaid/parsers.py,
lines 164-171): when the handle is closed, reopen it and seek to
`__last_position`. -/
def reopen (st : PState) : PState :=
  if st.closed then { st with closed := false, pos := st.last } else st

/-- Python `str.rstrip()`: drop trailing whitespace. -/
def rstrip (s : Str) : Str :=
  (s.reverse.dropWhile Char.isWhitespace).reverse

/-- Embedding of `SmartFastaParser.__skip_blank_and_comments`
(src/kmermaid/parsers.py, lines 173-185).

Python:
```
while True:
    line = self.__readline()
    if self._FH.tell() == self.__last_position:
        return ("", False)  # EOF
    self.__last_position = self._FH.tell()
    if line.startswith(">"):
        return (line, True)
```
Note the loop skips every line that does not start with `'>'` — not just
blank and comment lines.  The fuel only bounds the loop; any fuel above
the number of remaining lines is enough. -/
def skipBlankAndComments : Nat → PState → (Str × Bool) × PState
  | 0, st => (([], false), st)
  | fuel + 1, st =>
    let (line, st1) := readline st
    if st1.pos = st1.last then (([], false), st1)
    else
      let st2 := { st1 with last := st1.pos }
      if line.head? = some '>' then ((line, true), st2)
      else skipBlankAndComments fuel st2

/-- Embedding of `SmartFastaParser.__parse_sequence` (src/kmermaid/
parsers.py, lines 187-202): read lines until EOF or a `'>'` line
(consuming the `'>'` line from the handle but not recording its
position), joining the right-stripped lines. -/
def parseSeqLines : Nat → PState → Str × PState
  | 0, st => ([], st)
  | fuel + 1, st =>
    let (line, st1) := readline st
    if line = [] then ([], st1)
    else if line.head? = some '>' then ([], st1)
    else
      let st2 := { st1 with last := st1.pos }
      let (rest, st3) := parseSeqLines fuel st2
      (rstrip line ++ rest, st3)

/-- How a `SmartFastaParser.parse` run ends: normal generator exhaustion,
the `AssertionError` "premature end of file or no header found" (the
spec's `EmptyInput` error), the `ValueError` "header lines must start
with '>'" (the spec's `MalformedFasta` error), or fuel exhaustion (which
corresponds to a Python loop that never terminates). -/
inductive ParseOutcome
  | ended
  | emptyInput
  | malformedFasta
  | fuelOut
deriving DecidableEq, Repr

/-- Embedding of the `while True` loop of `SmartFastaParser.parse`
(src/kmermaid/parsers.py, lines 227-241).

Python:
```
while True:
    self.__reopen()
    line = self.__readline() if header_found else line
    if not line:
        return
    if not line.startswith(">"):
        raise ValueError("header lines must start with '>'")
    header = line[1:].rstrip()
    sequence = self.__parse_sequence().replace(" ", "").replace("\r", "")
    self._FH.close()
    header_found = False
    yield header, sequence
```
-/
def parseLoop : Nat → Str → Bool → PState → List (Str × Str) →
    List (Str × Str) × ParseOutcome
  | 0, _, _, _, acc => (acc, .fuelOut)
  | fuel + 1, line, headerFound, st, acc =>
    let st1 := reopen st
    let (line1, st2) := if headerFound then readline st1 else (line, st1)
    if line1 = [] then (acc, .ended)
    else if line1.head? ≠ some '>' then (acc, .malformedFasta)
    else
      let (seqRaw, st3) := parseSeqLines (st2.lines.length + 1) st2
      parseLoop fuel line1 false { st3 with closed := true }
        (acc ++ [(rstrip (line1.drop 1),
          seqRaw.filter (fun c => !(c == ' ' || c == '\r')))])

/-- Embedding of `SmartFastaParser.parse` (src/kmermaid/parsers.py, lines
204-241): reopen (the constructor closed the handle, so this seeks to
position 0), skip everything before the first `'>'` line, fail with the
`EmptyInput` assertion when none is found, and otherwise run the record
loop with `header_found = True`. -/
def parse (lines : List Str) : List (Str × Str) × ParseOutcome :=
  match skipBlankAndComments (lines.length + 1) (reopen ⟨lines, 0, 0, true⟩) with
  | ((_, false), _) => ([], .emptyInput)
  | ((line, true), st2) => parseLoop (lines.length + 1) line true st2 []

lemma skip_no_header :
    ∀ (fuel : Nat) (st : PState), st.last = st.pos →
      (∀ l ∈ st.lines, l.head? ≠ some '>') →
      ∃ st', skipBlankAndComments fuel st = (([], false), st') := by
  intro fuel
  induction fuel with
  | zero => intro st _ _; exact ⟨st, rfl⟩
  | succ fuel ih =>
    intro st hlast hlines
    by_cases hpos : st.pos < st.lines.length
    · simp only [skipBlankAndComments, readline, hpos, ite_true]
      rw [if_neg (by omega)]
      rw [if_neg (by
        have : st.lines.getD st.pos [] ∈ st.lines := by
          rw [List.getD_eq_getElem?_getD, List.getElem?_eq_getElem hpos]
          exact List.getElem_mem hpos
        exact hlines _ this)]
      exact ih _ rfl hlines
    · simp only [skipBlankAndComments, readline, hpos, ite_false]
      rw [if_pos hlast.symm]
      exact ⟨st, rfl⟩

/-- Claim C6, corrected.  The original claim — a first non-blank,
non-comment line that is not a header fails with `MalformedFasta` — is
false: `__skip_blank_and_comments` skips every pre-header line whatever
its content (see `claim_C6_counterexample`).  What holds is: lines before
the first `'>'` line are skipped regardless of content, and whenever the
input contains no `'>'` line at all — in particular when it is empty or
holds only blanks/comments, the claim's `EmptyInput` half — `parse`
yields no records and fails with the `EmptyInput` assertion. -/
theorem claim_C6 (lines : List Str) (h : ∀ l ∈ lines, l.head? ≠ some '>') :
    parse lines = ([], ParseOutcome.emptyInput) := by
  obtain ⟨st', hskip⟩ :=
    skip_no_header (lines.length + 1) (reopen ⟨lines, 0, 0, true⟩) rfl h
  rw [parse, hskip]

/-- Witness for (corrected) claim C6 on the headerless input `"ACGT\n"`. -/
theorem claim_C6_witness :
    (∀ l ∈ [(['A','C','G','T','\n'] : Str)], l.head? ≠ some '>')
    ∧ parse [['A','C','G','T','\n']] = ([], ParseOutcome.emptyInput) :=
  ⟨by decide, claim_C6 [['A','C','G','T','\n']] (by decide)⟩

/-- Counterexample to claim C6 as stated: for the input whose single line
is `"ACGT"` — its first non-blank, non-comment line does not start with
`'>'` — `SmartFastaParser.parse` raises the `EmptyInput` assertion
("premature end of file or no header found"), not `MalformedFasta`. -/
theorem claim_C6_counterexample :
    (parse [['A','C','G','T']]).2 = ParseOutcome.emptyInput
    ∧ (parse [['A','C','G','T']]).2 ≠ ParseOutcome.malformedFasta := by
  decide

/-! ## Joiner preparation (src/kmermaid/scripts/kmer_count.py,
`prep_joiner`) and batching preflight (src/kmermaid/batcher.py,
`FastaBatcher.do`) -/

/-- Error of the `KJoinerThreading.batch_size` setter (src/kmermaid/
join.py, lines 432-442): an `AssertionError` when the assigned value is
below 2. -/
inductive PrepErr
  | badBatchSize
deriving DecidableEq, Repr

/-- Embedding of `prep_joiner` (src/kmermaid/scripts/kmer_count.py, lines
141-162).

Python:
```
joiner.threads = threads                                  # clamped to [1, cpu_count]
joiner.batch_size = max(2, n_batches // threads)          # setter asserts >= 2: passes
rlim_min, rlim_max = resource.getrlimit(resource.RLIMIT_NOFILE)
joiner.batch_size = min(joiner.batch_size, rlim_max)      # setter asserts >= 2
resource.setrlimit(resource.RLIMIT_NOFILE, (max(rlim_min, joiner.batch_size), rlim_max))
```
The result tuple is `(joiner.threads, joiner.batch_size, new soft limit,
new hard limit)`.  `n_batches // threads` for `threads ≥ 1` is `Nat`
division (`threads = 0` would raise `ZeroDivisionError` in Python). -/
def prepJoiner (nBatches threads soft hard cpu : Nat) :
    Except PrepErr (Nat × Nat × Nat × Nat) :=
  let tClamped := max 1 (min threads cpu)
  let bs1 := max 2 (nBatches / threads)
  let bs2 := min bs1 hard
  if bs2 < 2 then .error .badBatchSize
  else .ok (tClamped, bs2, max soft bs2, hard)

/-- Claim C7: for every batch count `N ≥ 1`, thread count `T ≥ 1` and OS
descriptor limits `(soft, hard)` with `hard ≥ 2`, `prep_joiner` sets the
joiner's `batch_size` to `min(max(2, N // T), hard)` and raises the soft
limit to `max(soft, batch_size)` while leaving the hard limit unchanged;
the resulting `batch_size` is at least 2. -/
theorem claim_C7 (n threads soft hard cpu : Nat)
    (_hn : 1 ≤ n) (_ht : 1 ≤ threads) (hh : 2 ≤ hard) :
    prepJoiner n threads soft hard cpu
      = .ok (max 1 (min threads cpu), min (max 2 (n / threads)) hard,
          max soft (min (max 2 (n / threads)) hard), hard)
    ∧ 2 ≤ min (max 2 (n / threads)) hard := by
  have h2 : 2 ≤ min (max 2 (n / threads)) hard := le_min (le_max_left _ _) hh
  refine ⟨?_, h2⟩
  simp only [prepJoiner]
  rw [if_neg (by omega)]

/-- Witness for claim C7 with 10 batches, 4 threads, limits (256, 1024),
8 CPUs: `batch_size = 2`, soft limit stays 256. -/
theorem claim_C7_witness :
    ((1 : Nat) ≤ 10 ∧ (1 : Nat) ≤ 4 ∧ (2 : Nat) ≤ 1024)
    ∧ prepJoiner 10 4 256 1024 8 = .ok (4, 2, 256, 1024) :=
  ⟨⟨by decide, by decide, by decide⟩,
    (claim_C7 10 4 256 1024 8 (by decide) (by decide) (by decide)).1⟩

/-- Errors of `FastaBatcher.do` preflight (src/kmermaid/batcher.py, lines
433-463): `AssertionError` "input file not found" and "k must be >= 1"
(the guard is `k <= 1`). -/
inductive DoErr
  | inputNotFound
  | kTooSmall
deriving DecidableEq, Repr

/-- Embedding of `FastaBatcher.do` (src/kmermaid/batcher.py, lines
433-463): the two preflight checks run before the FASTA file is opened or
any record is read.

Python:
```
if not os.path.isfile(fasta):
    raise AssertionError(f"input file not found: {fasta}")
if k <= 1:
    raise AssertionError(f"k must be >= 1, got {k} instead.")
FH = gzip.open(...) if ... else open(...)
...scan records...
```
The abstract `proceed` value stands for the whole scanning/batching
continuation; the error branches return without touching it, which
captures "raises before reading any FASTA record". `k` is an `Int`, as
Python ints may be negative. -/
def fastaBatcherDo {α : Type} (isFile : Bool) (k : Int) (proceed : α) :
    Except DoErr α :=
  if isFile = false then .error .inputNotFound
  else if k ≤ 1 then .error .kTooSmall
  else .ok proceed

/-- Claim C10: for every `k ≤ 1` (including `k = 1`) `FastaBatcher.do`
raises before reading any FASTA record (the result is an error and is
independent of the scanning continuation), likewise when the input path
is not an existing file; scanning is reachable exactly when the file
exists and `k ≥ 2`. -/
theorem claim_C10 {α : Type} (isFile : Bool) (k : Int) (proceed : α) :
    (k ≤ 1 → fastaBatcherDo isFile k proceed
        = if isFile = false then .error .inputNotFound else .error .kTooSmall)
    ∧ (isFile = false → fastaBatcherDo isFile k proceed = .error .inputNotFound)
    ∧ (∀ x, fastaBatcherDo isFile k proceed = .ok x
        ↔ (isFile = true ∧ 2 ≤ k ∧ x = proceed)) := by
  refine ⟨?_, ?_, ?_⟩
  · intro hk
    cases isFile <;> simp [fastaBatcherDo, hk]
  · intro h
    rw [fastaBatcherDo, if_pos h]
  · intro x
    cases isFile with
    | false => simp [fastaBatcherDo]
    | true =>
      by_cases hk : k ≤ 1
      · rw [fastaBatcherDo, if_neg (by decide), if_pos hk]
        constructor
        · intro h; exact absurd h (by simp)
        · intro h; exact absurd h.2.1 (by omega)
      · rw [fastaBatcherDo, if_neg (by decide), if_neg hk]
        constructor
        · intro h
          exact ⟨rfl, by omega, (Except.ok.inj h).symm⟩
        · rintro ⟨-, -, rfl⟩
          rfl

/-- Witness for claim C10 at `k = 1` on an existing file. -/
theorem claim_C10_witness :
    ((1 : Int) ≤ 1)
    ∧ fastaBatcherDo true 1 (0 : Nat) = .error DoErr.kTooSmall :=
  ⟨by decide, (claim_C10 true 1 (0 : Nat)).1 (by decide)⟩

end Kmermaid
